import Mathlib

/-!
Shallow embedding of `src/pmcm/pmcm.py` (probabilistic multiple cracking
model).  Python floats are modelled as exact rationals `ℚ`; numpy array
operations become `List ℚ` operations.  The external root finder
`scipy.optimize.newton` is modelled abstractly by an oracle of type
`NewtonFun` (its possible outcomes: a converged value, or a raised
`RuntimeError` / `RuntimeWarning` — the module installs
`warnings.filterwarnings("error", category=RuntimeWarning)`, so numerical
warnings are raised), together with one concrete executable instance
`scipyNewton` that follows scipy's secant iteration.  Python exceptions are
modelled by `Option`/`none`; the unbounded `while True:` loop is modelled
with explicit fuel, `none` also standing for a run that does not terminate
within the fuel.
-/

namespace Pmcm

/-- Record of the material parameters (class `ModelParams`, pmcm.py lines
14-30).  The trait defaults are irrelevant to the claims; parameters are
explicit fields. -/
structure ModelParams where
  Em : ℚ
  Ef : ℚ
  vf : ℚ
  T : ℚ
  n_x : ℕ
  L_x : ℚ
  sig_cu : ℚ
  sig_mu : ℚ
  m : ℚ
deriving DecidableEq, Repr

/-- Composite stiffness, mixture rule (property `Ec`, pmcm.py lines 32-34). -/
def ModelParams.Ec (mp : ModelParams) : ℚ :=
  mp.Em * (1 - mp.vf) + mp.Ef * mp.vf

/-- `CrackBridgeRespSurface.get_sig_m` (pmcm.py lines 53-61), scalar core.
The declared parameter order of the source is `(sig_c, z)`; the body is
`np.minimum(z*T*vf/(1-vf), Em*sig_c/(vf*Ef+(1-vf)*Em))` in terms of those
parameter names.  Array broadcasting is applied at each call site exactly
as the source's positional arguments dictate. -/
def get_sig_m (mp : ModelParams) (sig_c z : ℚ) : ℚ :=
  min (z * mp.T * mp.vf / (1 - mp.vf))
      (mp.Em * sig_c / (mp.vf * mp.Ef + (1 - mp.vf) * mp.Em))

/-- `get_sig_m` broadcast over an array bound to the parameter `z`
(the binding described by the source's signature and docstring,
`sig_c : float`, `z : np.ndarray`). -/
def get_sig_m_z_arr (mp : ModelParams) (sig_c : ℚ) (z : List ℚ) : List ℚ :=
  z.map (fun zi => get_sig_m mp sig_c zi)

/-- `CrackBridgeRespSurface.get_eps_f` (pmcm.py lines 63-67), scalar core.
Declared parameters `(sig_c, z)`; the body calls `self.get_sig_m(z, sig_c)`
POSITIONALLY, i.e. its own `z` lands in `get_sig_m`'s `sig_c` slot and its
own `sig_c` in `get_sig_m`'s `z` slot, then returns
`(sig_c - sig_m*(1-vf)) / vf / Ef`. -/
def get_eps_f (mp : ModelParams) (sig_c z : ℚ) : ℚ :=
  let sig_m := get_sig_m mp z sig_c
  (sig_c - sig_m * (1 - mp.vf)) / mp.vf / mp.Ef

/-- Modelled from the spec: the fiber-strain force balance exactly as the
specification words it (`eps_f = (sig_c − sig_m·(1−vf)) / (vf·Ef)`, with
`sig_m = min(z·T·vf/(1−vf), Em·sig_c/(vf·Ef+(1−vf)·Em))`), kept as a
separate definition to compare against the source's `get_eps_f`. -/
def get_eps_f_specFormula (mp : ModelParams) (sig_c z : ℚ) : ℚ :=
  (sig_c - (min (z * mp.T * mp.vf / (1 - mp.vf))
      (mp.Em * sig_c / (mp.vf * mp.Ef + (1 - mp.vf) * mp.Em))) * (1 - mp.vf))
    / (mp.vf * mp.Ef)

/-- Outcome of one call of `scipy.optimize.newton` as observed by
`PMCM.get_sig_c_z`: either a converged value, or a raised `RuntimeError`
(non-convergence with `disp=True`), or a raised `RuntimeWarning`
(numerical warning escalated to an error by the module's warning filter). -/
inductive NewtonResult where
  | converged (r : ℚ)
  | raisedRuntimeError
  | raisedRuntimeWarning
deriving DecidableEq, Repr

/-- Type of root-finder oracles: a root finder receives the residual
function and the start value, exactly like `newton(fun, sig_c_pre)`. -/
def NewtonFun : Type := (ℚ → ℚ) → ℚ → NewtonResult

/-- `PMCM.get_sig_c_z` (pmcm.py lines 84-99): builds
`fun = lambda sig_c: sig_mu - self.cb_rs.get_sig_m(z, sig_c)` (positional:
`z` fills `get_sig_m`'s `sig_c` slot, the unknown fills its `z` slot),
runs the root finder on it, returns the converged value, and converts a
raised `RuntimeError`/`RuntimeWarning` into the sentinel `sig_cu`. -/
def get_sig_c_z (N : NewtonFun) (mp : ModelParams)
    (sig_mu z sig_c_pre : ℚ) : ℚ :=
  match N (fun sig_c => sig_mu - get_sig_m mp z sig_c) sig_c_pre with
  | .converged r => r
  | .raisedRuntimeError => mp.sig_cu
  | .raisedRuntimeWarning => mp.sig_cu

/-- Index and value of the first minimum of a list (model of `np.argmin`
together with the indexed read: `np.argmin` returns the FIRST index
attaining the minimum).  Junk value `(0, 0)` on `[]` (numpy raises there;
all uses are guarded by non-emptiness). -/
def minIdx : List ℚ → ℕ × ℚ
  | [] => (0, 0)
  | [a] => (0, a)
  | a :: b :: l =>
    let p := minIdx (b :: l)
    if p.2 < a then (p.1 + 1, p.2) else (0, a)

/-- `np.argmin`: first index of the minimum. -/
def argmin (l : List ℚ) : ℕ := (minIdx l).1

/-- `PMCM.get_sig_c_K` (pmcm.py lines 101-108): vectorized
`get_sig_c_z` over `(sig_mu_x, z_x)` with shared seed, then
`y_idx = np.argmin(sig_c_x)` and the pair `(sig_c_x[y_idx], x[y_idx])`. -/
def get_sig_c_K (N : NewtonFun) (mp : ModelParams)
    (z_x x : List ℚ) (sig_c_pre : ℚ) (sig_mu_x : List ℚ) : ℚ × ℚ :=
  let sig_c_x := List.zipWith
    (fun sig_mu z => get_sig_c_z N mp sig_mu z sig_c_pre) sig_mu_x z_x
  let y_idx := argmin sig_c_x
  (sig_c_x.getD y_idx 0, x.getD y_idx 0)

/-- `PMCM.get_z_x` (pmcm.py lines 78-82): per point the minimum of
`|x_i - c|` over the crack list.  With `XK = []` the reduction
`np.amin(..., axis=1)` has a zero-size axis and numpy raises a
`ValueError`; that failure is modelled by `none`. -/
def get_z_x (x XK : List ℚ) : Option (List ℚ) :=
  match XK with
  | [] => none
  | c :: cs => some (x.map (fun xi => (cs.map (fun c' => |xi - c'|)).foldl min |xi - c|))

/-- `np.linspace 0 L n`: `n` equally spaced points from `0` to `L`
(single point `0` for `n = 1`, empty for `n = 0`). -/
def linspace (L : ℚ) (n : ℕ) : List ℚ :=
  if n ≤ 1 then List.replicate n 0
  else (List.range n).map (fun i : ℕ => L * (i : ℚ) / ((n : ℚ) - 1))

/-- `np.trapz y x`: trapezoidal integral of samples `y` over nodes `x`. -/
def trapz (y x : List ℚ) : ℚ :=
  (List.zipWith (fun p1 p0 => (p1.1 - p0.1) * (p1.2 + p0.2) / 2)
    (x.zip y).tail (x.zip y)).sum

/-- `np.amax` of a nonempty list (seeded fold; all uses are nonempty). -/
def amax (l : List ℚ) : ℚ := l.foldl max (l.headD 0)

/-- Consecutive differences `l[1:] - l[:-1]`. -/
def diffs (l : List ℚ) : List ℚ := List.zipWith (fun a b => a - b) l.tail l

/-- `np.average`: arithmetic mean. -/
def average (l : List ℚ) : ℚ := l.sum / l.length

/-- The mutable history of `get_cracking_history`'s loop. -/
structure CrackState where
  XK : List ℚ
  sig_c_K : List ℚ
  eps_c_K : List ℚ
  CS : List ℚ
  sig_m_x_K : List (List ℚ)
deriving DecidableEq, Repr

/-- The result bundle returned by `get_cracking_history`
(pmcm.py line 154), together with the final value of the local crack-list
`XK`.  The Python return tuple does not include `XK`; it is carried here
as a ghost field because the specification's claims quantify over the
crack positions the run accumulated. -/
structure CrackResult where
  sig_c_K : List ℚ
  eps_c_K : List ℚ
  sig_mu_x : List ℚ
  x : List ℚ
  CS : List ℚ
  sig_m_x_K : List (List ℚ)
  XK : List ℚ
deriving DecidableEq, Repr

/-- The code after the `while` loop (pmcm.py lines 149-151): pin the final
state at `sig_cu`, recompute the strain there, repeat the last spacing. -/
def finalize (mp : ModelParams) (x sig_mu_x : List ℚ)
    (st : CrackState) : CrackResult :=
  let zfin := (get_z_x x st.XK).getD []
  { sig_c_K := st.sig_c_K ++ [mp.sig_cu]
    eps_c_K := st.eps_c_K ++
      [trapz (zfin.map (fun zi => get_eps_f mp zi mp.sig_cu)) x / amax x]
    sig_mu_x := sig_mu_x
    x := x
    CS := st.CS ++ [st.CS.getLastD 0]
    sig_m_x_K := st.sig_m_x_K
    XK := st.XK }

/-- One iteration of the `while True:` body (pmcm.py lines 131-147):
distance field, matrix-stress snapshot, next-crack selection; `inl` is the
`break` path (followed by the post-loop code), `inr` continues with the
updated state.  `none` models the `ValueError` raised by `get_z_x` on an
empty crack list (never reached from `get_cracking_history`). -/
def crackStep (N : NewtonFun) (mp : ModelParams) (x sig_mu_x : List ℚ)
    (st : CrackState) : Option (CrackResult ⊕ CrackState) :=
  match get_z_x x st.XK with
  | none => none
  | some z_x =>
    let sig_c_last := st.sig_c_K.getLastD 0
    let st1 : CrackState :=
      { st with sig_m_x_K :=
          st.sig_m_x_K ++ [z_x.map (fun zi => get_sig_m mp zi sig_c_last)] }
    let sc := get_sig_c_K N mp z_x x sig_c_last sig_mu_x
    if sc.1 = mp.sig_cu then
      some (.inl (finalize mp x sig_mu_x st1))
    else
      let XK' := st1.XK ++ [sc.2]
      let zeps := (get_z_x x XK').getD []
      let eps := trapz (zeps.map (fun zi => get_eps_f mp zi sc.1)) x / amax x
      let XK_arr := 0 :: (List.insertionSort (· ≤ ·) XK' ++ [mp.L_x])
      some (.inr
        { XK := XK'
          sig_c_K := st1.sig_c_K ++ [sc.1]
          eps_c_K := st1.eps_c_K ++ [eps]
          CS := st1.CS ++ [average (diffs XK_arr)]
          sig_m_x_K := st1.sig_m_x_K })

/-- The `while True:` loop with explicit fuel; `none` when the fuel is
exhausted (the loop did not terminate within `fuel` iterations) or a
modelled exception occurred. -/
def crackLoop (N : NewtonFun) (mp : ModelParams) (x sig_mu_x : List ℚ) :
    ℕ → CrackState → Option CrackResult
  | 0, _ => none
  | fuel + 1, st =>
    match crackStep N mp x sig_mu_x st with
    | none => none
    | some (.inl res) => some res
    | some (.inr st') => crackLoop N mp x sig_mu_x fuel st'

/-- The state set up before the loop (pmcm.py lines 116-129): bootstrap
entries, first crack at the weakest point, its stress `sig_mu·Ec/Em` and
strain `sig_mu/Em`. -/
def initState (mp : ModelParams) (x sig_mu_x : List ℚ) : CrackState :=
  let idx_0 := argmin sig_mu_x
  { XK := [x.getD idx_0 0]
    sig_c_K := [0, sig_mu_x.getD idx_0 0 * mp.Ec / mp.Em]
    eps_c_K := [0, sig_mu_x.getD idx_0 0 / mp.Em]
    CS := [mp.L_x, mp.L_x / 2]
    sig_m_x_K := [x.map (fun _ => 0)] }

/-- `PMCM.get_cracking_history` (pmcm.py lines 110-154).  The random
strength field `sig_mu_x` (sampled by `np.random.weibull` with
`size = n_x`) is an input; the guard records that a sample has length
`n_x` and that `np.argmin` of an empty array raises (`n_x = 0`). -/
def get_cracking_history (N : NewtonFun) (mp : ModelParams)
    (sig_mu_x : List ℚ) (fuel : ℕ) : Option CrackResult :=
  if sig_mu_x.length = mp.n_x ∧ mp.n_x ≠ 0 then
    let x := linspace mp.L_x mp.n_x
    crackLoop N mp x sig_mu_x fuel (initState mp x sig_mu_x)
  else none

/-- Secant iteration of `scipy.optimize.newton` (the branch taken when no
derivative is supplied), modelled from scipy's `_zeros_py.py`: stop with
`converged` when successive iterates are within the absolute tolerance
(`rtol` defaults to 0), raise `RuntimeError` when the two residuals are
equal (zero secant denominator, `disp=True`) or when `maxiter` runs out. -/
def secantGo (f : ℚ → ℚ) (tol : ℚ) :
    ℕ → ℚ → ℚ → ℚ → ℚ → NewtonResult
  | 0, _, _, _, _ => .raisedRuntimeError
  | n + 1, p0, p1, q0, q1 =>
    if q1 = q0 then .raisedRuntimeError
    else
      let p := p1 - q1 * (p1 - p0) / (q1 - q0)
      if |p - p1| ≤ tol then .converged p
      else secantGo f tol n p1 p q1 (f p)

/-- `scipy.optimize.newton(fun, x0)` with scipy's defaults
(`tol = 1.48e-8`, `maxiter = 50`, secant start value
`x0*(1+1e-4) ± 1e-4`, initial swap to the smaller residual). -/
def scipyNewton : NewtonFun := fun f x0 =>
  let eps : ℚ := 1 / 10000
  let tol : ℚ := 37 / 2500000000
  let p1a := x0 * (1 + eps)
  let p1 := if 0 ≤ p1a then p1a + eps else p1a - eps
  let q0 := f x0
  let q1 := f p1
  if |q1| < |q0| then secantGo f tol 50 p1 x0 q1 q0
  else secantGo f tol 50 x0 p1 q0 q1

/-- A root finder that never converges (every call raises
`RuntimeError`); used to exercise the shielded-zone paths on concrete
runs. -/
def errNewton : NewtonFun := fun _ _ => .raisedRuntimeError

/-- The candidate vector built inside `get_sig_c_K` (the result of the
vectorized `get_sig_c_z` call). -/
def candVec (N : NewtonFun) (mp : ModelParams)
    (z_x : List ℚ) (sig_c_pre : ℚ) (sig_mu_x : List ℚ) : List ℚ :=
  List.zipWith (fun sig_mu z => get_sig_c_z N mp sig_mu z sig_c_pre) sig_mu_x z_x

/-- A tiny concrete parameter record (`Em=1, Ef=1, vf=1/2, T=1, n_x=2,
L_x=1, sig_cu=5`) used for concrete witness runs. -/
def mpW : ModelParams := ⟨1, 1, 1/2, 1, 2, 1, 5, 1, 1⟩

/-- The full outcome of `get_cracking_history errNewton mpW [1, 2] 1`:
the first crack forms at the weakest point `x = 0`, all candidates are
then shielded, and the run finalizes at `sig_cu = 5`. -/
def resW : CrackResult :=
  ⟨[0, 1, 5], [0, 1, 1/2], [1, 2], [0, 1], [1, 1/2, 1/2],
    [[0, 0], [0, 1]], [0]⟩

/-- Concrete parameters (`Em=1, Ef=1, vf=1/2, T=2`) at which the two
positional readings of `get_eps_f` both differ from the spec's force
balance. -/
def mpC2 : ModelParams := ⟨1, 1, 1/2, 2, 2, 1, 5, 1, 1⟩

/-- Concrete parameters (`Em=1, Ef=1, vf=1/2, T=10, n_x=3, L_x=40,
sig_cu=100`) for which a full secant-driven run produces a decreasing
`sig_c_K`. -/
def mpC5 : ModelParams := ⟨1, 1, 1/2, 10, 3, 40, 100, 1, 1⟩

/-- Executable check that a list is non-decreasing. -/
def nonDecreasing : List ℚ → Bool
  | [] => true
  | [_] => true
  | a :: b :: l => decide (a ≤ b) && nonDecreasing (b :: l)

/-! ### Properties of `minIdx` / `argmin` -/

theorem minIdx_fst_lt_length : ∀ l : List ℚ, l ≠ [] → (minIdx l).1 < l.length
  | [], h => absurd rfl h
  | [a], _ => by simp [minIdx]
  | a :: b :: l, _ => by
    have ih := minIdx_fst_lt_length (b :: l) (by simp)
    simp only [minIdx]
    split
    · simpa using Nat.succ_lt_succ ih
    · simp

theorem minIdx_snd_le : ∀ l : List ℚ, ∀ y ∈ l, (minIdx l).2 ≤ y
  | [a], y, hy => by
    rcases List.mem_singleton.mp hy with rfl
    simp [minIdx]
  | a :: b :: l, y, hy => by
    have ih := minIdx_snd_le (b :: l)
    simp only [minIdx]
    rcases List.mem_cons.mp hy with rfl | hy'
    · split
      · next h => exact le_of_lt h
      · exact le_refl y
    · split
      · exact ih y hy'
      · next h => exact le_trans (not_lt.mp h) (ih y hy')

theorem minIdx_getD : ∀ l : List ℚ, l ≠ [] → l.getD (minIdx l).1 0 = (minIdx l).2
  | [], h => absurd rfl h
  | [a], _ => by simp [minIdx]
  | a :: b :: l, _ => by
    have ih := minIdx_getD (b :: l) (by simp)
    simp only [minIdx]
    split
    · simpa using ih
    · simp

theorem minIdx_snd_lt_of_lt_fst :
    ∀ l : List ℚ, ∀ j < (minIdx l).1, (minIdx l).2 < l.getD j 0
  | [], j, hj => by simp [minIdx] at hj
  | [a], j, hj => by simp [minIdx] at hj
  | a :: b :: l, j, hj => by
    have ih := minIdx_snd_lt_of_lt_fst (b :: l)
    simp only [minIdx] at hj ⊢
    split
    · next h =>
      rw [if_pos h] at hj
      match j with
      | 0 => simpa using h
      | j' + 1 => simpa using ih j' (Nat.lt_of_succ_lt_succ hj)
    · next h => rw [if_neg h] at hj; exact absurd hj (Nat.not_lt_zero j)

theorem minIdx_snd_mem : ∀ l : List ℚ, l ≠ [] → (minIdx l).2 ∈ l
  | [], h => absurd rfl h
  | [a], _ => by simp [minIdx]
  | a :: b :: l, _ => by
    have ih := minIdx_snd_mem (b :: l) (by simp)
    simp only [minIdx]
    split
    · exact List.mem_cons_of_mem a ih
    · exact List.mem_cons_self a _

/-! ### Properties of seeded minimum folds and `get_z_x` -/

theorem foldl_min_le_init (l : List ℚ) (a : ℚ) : l.foldl min a ≤ a := by
  induction l generalizing a with
  | nil => exact le_refl a
  | cons c l ih => exact le_trans (ih (min a c)) (min_le_left a c)

theorem foldl_min_le_mem (l : List ℚ) (a : ℚ) :
    ∀ b ∈ l, l.foldl min a ≤ b := by
  induction l generalizing a with
  | nil => intro b hb; simp at hb
  | cons c l ih =>
    intro b hb
    rcases List.mem_cons.mp hb with rfl | hb'
    · exact le_trans (foldl_min_le_init l (min a b)) (min_le_right a b)
    · exact ih (min a c) b hb'

theorem foldl_min_cases (l : List ℚ) (a : ℚ) :
    l.foldl min a = a ∨ l.foldl min a ∈ l := by
  induction l generalizing a with
  | nil => exact Or.inl rfl
  | cons c l ih =>
    rcases ih (min a c) with h | h
    · rcases min_cases a c with ⟨h', _⟩ | ⟨h', _⟩
      · exact Or.inl (by rw [List.foldl_cons, h, h'])
      · exact Or.inr (by rw [List.foldl_cons, h, h']; exact List.mem_cons_self c l)
    · exact Or.inr (List.mem_cons_of_mem c h)

/-- The seeded minimum fold over the images of a nonempty list is a lower
bound of all images. -/
theorem rowMin_le (f : ℚ → ℚ) (c : ℚ) (cs : List ℚ) :
    ∀ y ∈ c :: cs, (cs.map f).foldl min (f c) ≤ f y := by
  intro y hy
  rcases List.mem_cons.mp hy with rfl | hy'
  · exact foldl_min_le_init (cs.map f) (f y)
  · exact foldl_min_le_mem (cs.map f) (f c) (f y) (List.mem_map_of_mem f hy')

/-- The seeded minimum fold over the images of a nonempty list is attained
at some element. -/
theorem rowMin_mem (f : ℚ → ℚ) (c : ℚ) (cs : List ℚ) :
    ∃ y ∈ c :: cs, (cs.map f).foldl min (f c) = f y := by
  rcases foldl_min_cases (cs.map f) (f c) with h | h
  · exact ⟨c, List.mem_cons_self c cs, h⟩
  · rcases List.mem_map.mp h with ⟨y, hy, hfy⟩
    exact ⟨y, List.mem_cons_of_mem c hy, hfy.symm⟩

/-- The seeded minimum fold depends only on the underlying multiset. -/
theorem rowMin_perm (f : ℚ → ℚ) (c c' : ℚ) (cs cs' : List ℚ)
    (h : (c :: cs).Perm (c' :: cs')) :
    (cs.map f).foldl min (f c) = (cs'.map f).foldl min (f c') := by
  rcases rowMin_mem f c cs with ⟨y, hy, hval⟩
  rcases rowMin_mem f c' cs' with ⟨y', hy', hval'⟩
  apply le_antisymm
  · rw [hval']
    exact rowMin_le f c cs y' (h.mem_iff.mpr hy')
  · rw [hval]
    exact rowMin_le f c' cs' y (h.mem_iff.mp hy)

theorem get_z_x_nil (x : List ℚ) : get_z_x x [] = none := rfl

theorem get_z_x_isSome (x XK : List ℚ) (h : XK ≠ []) :
    ∃ zs, get_z_x x XK = some zs := by
  match XK with
  | [] => exact absurd rfl h
  | c :: cs => exact ⟨_, rfl⟩

theorem get_z_x_length (x XK zs : List ℚ) (h : get_z_x x XK = some zs) :
    zs.length = x.length := by
  match XK with
  | [] => simp [get_z_x] at h
  | c :: cs =>
    simp only [get_z_x, Option.some.injEq] at h
    rw [← h, List.length_map]

theorem get_z_x_perm (x XK XK' : List ℚ) (h : XK.Perm XK') :
    get_z_x x XK = get_z_x x XK' := by
  match XK, XK' with
  | [], [] => rfl
  | [], c' :: cs' => exact absurd h.symm (List.cons_ne_nil c' cs' |> fun hne hp => hne (hp.eq_nil))
  | c :: cs, [] => exact absurd h (fun hp => List.cons_ne_nil c cs hp.eq_nil)
  | c :: cs, c' :: cs' =>
    simp only [get_z_x, Option.some.injEq]
    apply List.map_congr_left
    intro xi _
    exact rowMin_perm (fun ci => |xi - ci|) c c' cs cs' h

/-- Elementwise characterization of `get_z_x`: each output entry is a
lower bound of the distances to all cracks and is attained at one. -/
theorem get_z_x_spec (x XK zs : List ℚ) (h : get_z_x x XK = some zs)
    (i : ℕ) (hi : i < x.length) :
    (∀ c ∈ XK, zs.getD i 0 ≤ |x.getD i 0 - c|) ∧
    (∃ c ∈ XK, zs.getD i 0 = |x.getD i 0 - c|) := by
  match XK with
  | [] => simp [get_z_x] at h
  | c :: cs =>
    simp only [get_z_x, Option.some.injEq] at h
    have hzi : zs.getD i 0 =
        ((cs.map (fun c' => |x.getD i 0 - c'|)).foldl min |x.getD i 0 - c|) := by
      rw [← h]
      rw [List.getD_eq_getElem?_getD, List.getD_eq_getElem?_getD,
        List.getElem?_map, List.getElem?_eq_getElem hi]
      rfl
    constructor
    · intro c' hc'
      rw [hzi]
      exact rowMin_le (fun ci => |x.getD i 0 - ci|) c cs c' hc'
    · rcases rowMin_mem (fun ci => |x.getD i 0 - ci|) c cs with ⟨y, hy, hval⟩
      exact ⟨y, hy, by rw [hzi]; exact hval⟩

/-! ### Properties of `linspace` -/

theorem linspace_length (L : ℚ) (n : ℕ) : (linspace L n).length = n := by
  unfold linspace
  split
  · exact List.length_replicate n 0
  · rw [List.length_map, List.length_range]

theorem mem_linspace_bounds (L : ℚ) (n : ℕ) (hL : 0 ≤ L) :
    ∀ p ∈ linspace L n, 0 ≤ p ∧ p ≤ L := by
  intro p hp
  unfold linspace at hp
  split at hp
  · rcases List.eq_of_mem_replicate hp with rfl
    exact ⟨le_refl 0, hL⟩
  · next hn =>
    rcases List.mem_map.mp hp with ⟨i, hi, rfl⟩
    have hi' : i < n := List.mem_range.mp hi
    have hn2 : 2 ≤ n := by omega
    have hden : (0 : ℚ) < (n : ℚ) - 1 := by
      have : (2 : ℚ) ≤ (n : ℚ) := by exact_mod_cast hn2
      linarith
    constructor
    · apply div_nonneg (mul_nonneg hL (by positivity)) (le_of_lt hden)
    · rw [div_le_iff₀ hden]
      have hic : (i : ℚ) ≤ (n : ℚ) - 1 := by
        have : (i : ℚ) + 1 ≤ (n : ℚ) := by exact_mod_cast hi'
        linarith
      exact mul_le_mul_of_nonneg_left hic hL

/-! ### Loop machinery: step elimination and a generic invariant rule -/

theorem crackStep_inr_elim (N : NewtonFun) (mp : ModelParams)
    (x sig_mu_x : List ℚ) (st st' : CrackState)
    (h : crackStep N mp x sig_mu_x st = some (.inr st')) :
    ∃ z_x, get_z_x x st.XK = some z_x ∧
      (get_sig_c_K N mp z_x x (st.sig_c_K.getLastD 0) sig_mu_x).1 ≠ mp.sig_cu ∧
      st'.XK = st.XK ++
        [(get_sig_c_K N mp z_x x (st.sig_c_K.getLastD 0) sig_mu_x).2] ∧
      st'.sig_c_K = st.sig_c_K ++
        [(get_sig_c_K N mp z_x x (st.sig_c_K.getLastD 0) sig_mu_x).1] ∧
      (∃ e, st'.eps_c_K = st.eps_c_K ++ [e]) ∧
      (∃ c, st'.CS = st.CS ++ [c]) ∧
      st'.sig_m_x_K = st.sig_m_x_K ++
        [z_x.map (fun zi => get_sig_m mp zi (st.sig_c_K.getLastD 0))] := by
  unfold crackStep at h
  match hz : get_z_x x st.XK with
  | none => rw [hz] at h; simp at h
  | some z_x =>
    rw [hz] at h
    simp only at h
    split at h
    · simp at h
    · next hne =>
      refine ⟨z_x, rfl, hne, ?_⟩
      rcases Option.some.inj h with h'
      rcases Sum.inr.inj h' with rfl
      exact ⟨rfl, rfl, ⟨_, rfl⟩, ⟨_, rfl⟩, rfl⟩

theorem crackStep_inl_elim (N : NewtonFun) (mp : ModelParams)
    (x sig_mu_x : List ℚ) (st : CrackState) (res : CrackResult)
    (h : crackStep N mp x sig_mu_x st = some (.inl res)) :
    ∃ z_x, get_z_x x st.XK = some z_x ∧
      res.XK = st.XK ∧
      res.sig_c_K = st.sig_c_K ++ [mp.sig_cu] ∧
      (∃ e, res.eps_c_K = st.eps_c_K ++ [e]) ∧
      res.sig_mu_x = sig_mu_x ∧ res.x = x ∧
      (∃ c, res.CS = st.CS ++ [c]) ∧
      res.sig_m_x_K = st.sig_m_x_K ++
        [z_x.map (fun zi => get_sig_m mp zi (st.sig_c_K.getLastD 0))] := by
  unfold crackStep at h
  match hz : get_z_x x st.XK with
  | none => rw [hz] at h; simp at h
  | some z_x =>
    rw [hz] at h
    simp only at h
    split at h
    · refine ⟨z_x, rfl, ?_⟩
      rcases Option.some.inj h with h'
      rcases Sum.inl.inj h' with rfl
      exact ⟨rfl, rfl, ⟨_, rfl⟩, rfl, rfl, ⟨_, rfl⟩, rfl⟩
    · simp at h

/-- Wait-free induction rule for the fueled loop: a state invariant that
survives each continuing step and implies the goal at the breaking step
holds of every terminating run. -/
theorem crackLoop_invariant (N : NewtonFun) (mp : ModelParams)
    (x sig_mu_x : List ℚ) (P : CrackState → Prop) (Q : CrackResult → Prop)
    (hstep : ∀ st st', P st →
      crackStep N mp x sig_mu_x st = some (.inr st') → P st')
    (hfin : ∀ st res, P st →
      crackStep N mp x sig_mu_x st = some (.inl res) → Q res) :
    ∀ fuel st res, P st →
      crackLoop N mp x sig_mu_x fuel st = some res → Q res := by
  intro fuel
  induction fuel with
  | zero => intro st res _ h; simp [crackLoop] at h
  | succ fuel ih =>
    intro st res hP h
    unfold crackLoop at h
    match hs : crackStep N mp x sig_mu_x st with
    | none => rw [hs] at h; simp at h
    | some (.inl res') =>
      rw [hs] at h
      exact (Option.some.inj h) ▸ hfin st res' hP hs
    | some (.inr st') =>
      rw [hs] at h
      exact ih st' res (hstep st st' hP hs) h

theorem getD_mem (l : List ℚ) (n : ℕ) (d : ℚ) (h : n < l.length) :
    l.getD n d ∈ l := by
  rw [List.getD_eq_getElem?_getD, List.getElem?_eq_getElem h]
  exact List.getElem_mem h

theorem getElem?_append_some {α : Type} {l l' : List α} {i : ℕ} {v : α}
    (h : l[i]? = some v) : (l ++ l')[i]? = some v := by
  have hi : i < l.length := by
    by_contra hge
    rw [List.getElem?_eq_none (Nat.le_of_not_lt hge)] at h
    exact Option.noConfusion h
  rw [List.getElem?_append, if_pos hi]
  exact h

theorem getD_append_left {l l' : List ℚ} {j : ℕ} (d : ℚ) (h : j < l.length) :
    (l ++ l').getD j d = l.getD j d := by
  rw [List.getD_eq_getElem?_getD, List.getD_eq_getElem?_getD,
    List.getElem?_append, if_pos h]

theorem getD_length_sub_one (l : List ℚ) :
    l.getD (l.length - 1) 0 = l.getLastD 0 := by
  rw [List.getD_eq_getElem?_getD, List.getLastD_eq_getLast?,
    List.getLast?_eq_getElem?]

theorem get_cracking_history_elim (N : NewtonFun) (mp : ModelParams)
    (sig_mu_x : List ℚ) (fuel : ℕ) (res : CrackResult)
    (h : get_cracking_history N mp sig_mu_x fuel = some res) :
    sig_mu_x.length = mp.n_x ∧ mp.n_x ≠ 0 ∧
      crackLoop N mp (linspace mp.L_x mp.n_x) sig_mu_x fuel
        (initState mp (linspace mp.L_x mp.n_x) sig_mu_x) = some res := by
  unfold get_cracking_history at h
  split at h
  · next hc => exact ⟨hc.1, hc.2, h⟩
  · exact Option.noConfusion h

theorem get_sig_c_K_eq (N : NewtonFun) (mp : ModelParams)
    (z_x x : List ℚ) (sig_c_pre : ℚ) (sig_mu_x : List ℚ) :
    get_sig_c_K N mp z_x x sig_c_pre sig_mu_x =
      ((candVec N mp z_x sig_c_pre sig_mu_x).getD
          (argmin (candVec N mp z_x sig_c_pre sig_mu_x)) 0,
        x.getD (argmin (candVec N mp z_x sig_c_pre sig_mu_x)) 0) := rfl

theorem candVec_length (N : NewtonFun) (mp : ModelParams)
    (z_x : List ℚ) (sig_c_pre : ℚ) (sig_mu_x : List ℚ) :
    (candVec N mp z_x sig_c_pre sig_mu_x).length =
      min sig_mu_x.length z_x.length := by
  unfold candVec
  exact List.length_zipWith _ _ _

/-- The position returned by `get_sig_c_K` is one of the discretization
points whenever the three arrays have the common length `n_x > 0`. -/
theorem get_sig_c_K_snd_mem (N : NewtonFun) (mp : ModelParams)
    (z_x x : List ℚ) (sig_c_pre : ℚ) (sig_mu_x : List ℚ)
    (hsm : sig_mu_x.length = x.length) (hz : z_x.length = x.length)
    (hx : x ≠ []) :
    (get_sig_c_K N mp z_x x sig_c_pre sig_mu_x).2 ∈ x := by
  rw [get_sig_c_K_eq]
  have hlen : (candVec N mp z_x sig_c_pre sig_mu_x).length = x.length := by
    rw [candVec_length, hsm, hz, min_self]
  have hne : candVec N mp z_x sig_c_pre sig_mu_x ≠ [] := by
    intro hnil
    rw [hnil] at hlen
    exact hx (List.eq_nil_of_length_eq_zero hlen.symm)
  have harg := minIdx_fst_lt_length _ hne
  rw [hlen] at harg
  exact getD_mem x _ 0 harg

/-! ### The claims -/

/-- Claim C1: for every remote composite stress `sig_c` and every array
`z` of distances from the nearest crack, `get_sig_m` returns elementwise
`min(z·T·vf/(1−vf), Em·sig_c/(vf·Ef+(1−vf)·Em))` — the lesser of the
shear-lag ramp term in `z` and the fully bonded plateau term in
`sig_c`. -/
theorem claim_C1 (mp : ModelParams) (sig_c : ℚ) (z : List ℚ) :
    get_sig_m_z_arr mp sig_c z =
      z.map (fun zi => min (zi * mp.T * mp.vf / (1 - mp.vf))
        (mp.Em * sig_c / (mp.vf * mp.Ef + (1 - mp.vf) * mp.Em))) ∧
    ∀ zi : ℚ,
      get_sig_m mp sig_c zi ≤ zi * mp.T * mp.vf / (1 - mp.vf) ∧
      get_sig_m mp sig_c zi ≤
        mp.Em * sig_c / (mp.vf * mp.Ef + (1 - mp.vf) * mp.Em) ∧
      (get_sig_m mp sig_c zi = zi * mp.T * mp.vf / (1 - mp.vf) ∨
        get_sig_m mp sig_c zi =
          mp.Em * sig_c / (mp.vf * mp.Ef + (1 - mp.vf) * mp.Em)) :=
  ⟨rfl, fun _ => ⟨min_le_left _ _, min_le_right _ _, min_choice _ _⟩⟩

unseal Rat.add Rat.mul Rat.inv Rat.sub in
/-- Claim C2 (code-bug evidence): the claim states
`get_eps_f(z, sig_c) = (sig_c − sig_m·(1−vf))/(vf·Ef)` with
`sig_m = get_sig_m(z, sig_c)` and the remote stress in the numerator.  At
`Em=Ef=1, vf=1/2, T=2` and `(z, sig_c) = (1, 4)` the spec's force balance
gives `6`; the code gives `0` when called the way the tracer calls it at
pmcm.py:145 (distance first — the distance lands in the parameter named
`sig_c` and hence in the numerator) and `7` under the declared
name-binding (because the inner call `get_sig_m(z, sig_c)` swaps the
argument slots).  Both readings of the code disagree with the claim. -/
theorem claim_C2_eval :
    get_eps_f mpC2 1 4 = 0 ∧
    get_eps_f mpC2 4 1 = 7 ∧
    get_eps_f_specFormula mpC2 4 1 = 6 ∧
    get_eps_f mpC2 1 4 ≠ get_eps_f_specFormula mpC2 4 1 ∧
    get_eps_f mpC2 4 1 ≠ get_eps_f_specFormula mpC2 4 1 := by
  refine ⟨by decide, by decide, by decide, by decide, by decide⟩

/-- Claim C3: for every root-finder outcome, `get_sig_c_z` never
propagates an error: when the finder converges it returns the found value
for the residual `fun sig_c => sig_mu − get_sig_m(z, sig_c)` (the
arguments passed positionally exactly as at pmcm.py:92), and on a raised
`RuntimeError` or `RuntimeWarning` it returns the sentinel `sig_cu`. -/
theorem claim_C3 (N : NewtonFun) (mp : ModelParams)
    (sig_mu z sig_c_pre : ℚ) :
    (∃ r, N (fun sig_c => sig_mu - get_sig_m mp z sig_c) sig_c_pre =
        .converged r ∧ get_sig_c_z N mp sig_mu z sig_c_pre = r) ∨
    ((N (fun sig_c => sig_mu - get_sig_m mp z sig_c) sig_c_pre =
        .raisedRuntimeError ∨
      N (fun sig_c => sig_mu - get_sig_m mp z sig_c) sig_c_pre =
        .raisedRuntimeWarning) ∧
      get_sig_c_z N mp sig_mu z sig_c_pre = mp.sig_cu) := by
  cases h : N (fun sig_c => sig_mu - get_sig_m mp z sig_c) sig_c_pre with
  | converged r =>
    exact Or.inl ⟨r, rfl, by unfold get_sig_c_z; rw [h]⟩
  | raisedRuntimeError =>
    exact Or.inr ⟨Or.inl rfl, by unfold get_sig_c_z; rw [h]⟩
  | raisedRuntimeWarning =>
    exact Or.inr ⟨Or.inr rfl, by unfold get_sig_c_z; rw [h]⟩

/-- Claim C4: on equal-length nonempty inputs, `get_sig_c_K` returns the
pair formed by the minimum candidate stress and the discretization point
at the same index, and that index is the first one attaining the
minimum (all earlier candidates are strictly larger). -/
theorem claim_C4 (N : NewtonFun) (mp : ModelParams) (z_x x : List ℚ)
    (sig_c_pre : ℚ) (sig_mu_x : List ℚ)
    (hsm : sig_mu_x.length = x.length) (hz : z_x.length = x.length)
    (hx : x ≠ []) :
    ∃ i < (candVec N mp z_x sig_c_pre sig_mu_x).length,
      get_sig_c_K N mp z_x x sig_c_pre sig_mu_x =
        ((candVec N mp z_x sig_c_pre sig_mu_x).getD i 0, x.getD i 0) ∧
      (∀ c ∈ candVec N mp z_x sig_c_pre sig_mu_x,
        (candVec N mp z_x sig_c_pre sig_mu_x).getD i 0 ≤ c) ∧
      (∀ j < i, (candVec N mp z_x sig_c_pre sig_mu_x).getD i 0 <
        (candVec N mp z_x sig_c_pre sig_mu_x).getD j 0) := by
  have hlen : (candVec N mp z_x sig_c_pre sig_mu_x).length = x.length := by
    rw [candVec_length, hsm, hz, min_self]
  have hne : candVec N mp z_x sig_c_pre sig_mu_x ≠ [] := by
    intro hnil
    rw [hnil] at hlen
    exact hx (List.eq_nil_of_length_eq_zero hlen.symm)
  have hval := minIdx_getD _ hne
  refine ⟨argmin (candVec N mp z_x sig_c_pre sig_mu_x),
    minIdx_fst_lt_length _ hne, get_sig_c_K_eq N mp z_x x sig_c_pre sig_mu_x,
    ?_, ?_⟩
  · intro c hc
    rw [show argmin (candVec N mp z_x sig_c_pre sig_mu_x) =
      (minIdx (candVec N mp z_x sig_c_pre sig_mu_x)).1 from rfl, hval]
    exact minIdx_snd_le _ c hc
  · intro j hj
    rw [show argmin (candVec N mp z_x sig_c_pre sig_mu_x) =
      (minIdx (candVec N mp z_x sig_c_pre sig_mu_x)).1 from rfl] at hj ⊢
    rw [hval]
    exact minIdx_snd_lt_of_lt_fst _ j hj

/-- Claim C4, witness: a concrete tied candidate vector `[5, 5]`
(both points shielded): the returned pair is `(5, x[0])`, the first
occurrence of the minimum. -/
theorem claim_C4_witness :
    ∃ i < (candVec errNewton mpW [0, 1] 7 [3, 4]).length,
      get_sig_c_K errNewton mpW [0, 1] [0, 1] 7 [3, 4] =
        ((candVec errNewton mpW [0, 1] 7 [3, 4]).getD i 0,
          [(0 : ℚ), 1].getD i 0) ∧
      (∀ c ∈ candVec errNewton mpW [0, 1] 7 [3, 4],
        (candVec errNewton mpW [0, 1] 7 [3, 4]).getD i 0 ≤ c) ∧
      (∀ j < i, (candVec errNewton mpW [0, 1] 7 [3, 4]).getD i 0 <
        (candVec errNewton mpW [0, 1] 7 [3, 4]).getD j 0) :=
  claim_C4 errNewton mpW [0, 1] [0, 1] 7 [3, 4] (by decide) (by decide)
    (by decide)

/-- Claim C6, counterexample: with an empty crack list `get_z_x` does
fail — `np.amin` over the zero-size axis raises a `ValueError`, modelled
as `none` — instead of returning "infinite" distances as claimed. -/
theorem claim_C6_cex : get_z_x [(0 : ℚ), 1] [] = none := rfl

/-- Claim C6, amended: for every discretization `x` and every NONEMPTY
crack list `XK`, `get_z_x` succeeds and returns, for each point, the
minimum absolute distance to any entry of `XK`, with no ordering
requirement on `XK` (the result is invariant under permutations); with
`XK` empty the call fails. -/
theorem claim_C6_amended (x XK : List ℚ) (h : XK ≠ []) :
    ∃ zs, get_z_x x XK = some zs ∧ zs.length = x.length ∧
      (∀ i < x.length,
        (∀ c ∈ XK, zs.getD i 0 ≤ |x.getD i 0 - c|) ∧
        ∃ c ∈ XK, zs.getD i 0 = |x.getD i 0 - c|) ∧
      ∀ XK', XK.Perm XK' → get_z_x x XK = get_z_x x XK' := by
  rcases get_z_x_isSome x XK h with ⟨zs, hzs⟩
  exact ⟨zs, hzs, get_z_x_length x XK zs hzs,
    fun i hi => get_z_x_spec x XK zs hzs i hi,
    fun XK' hp => get_z_x_perm x XK XK' hp⟩

/-- Claim C6, witness: concrete unsorted crack list `[2, 1]`. -/
theorem claim_C6_witness :
    ∃ zs, get_z_x [(0 : ℚ), 3] [2, 1] = some zs ∧
      zs.length = ([(0 : ℚ), 3] : List ℚ).length ∧
      (∀ i < ([(0 : ℚ), 3] : List ℚ).length,
        (∀ c ∈ ([(2 : ℚ), 1] : List ℚ),
          zs.getD i 0 ≤ |([(0 : ℚ), 3] : List ℚ).getD i 0 - c|) ∧
        ∃ c ∈ ([(2 : ℚ), 1] : List ℚ),
          zs.getD i 0 = |([(0 : ℚ), 3] : List ℚ).getD i 0 - c|) ∧
      ∀ XK', ([(2 : ℚ), 1] : List ℚ).Perm XK' →
        get_z_x [(0 : ℚ), 3] [2, 1] = get_z_x [(0 : ℚ), 3] XK' :=
  claim_C6_amended [0, 3] [2, 1] (by decide)

/-- Claim C7: in every terminating run the first crack is placed at the
discretization point with the (first) smallest sampled strength, the
second recorded stress is `sig_mu_x[idx]·Ec/Em` with the mixture-rule
`Ec`, and the second recorded strain is `sig_mu_x[idx]/Em`. -/
theorem claim_C7 (N : NewtonFun) (mp : ModelParams) (sig_mu_x : List ℚ)
    (fuel : ℕ) (res : CrackResult)
    (h : get_cracking_history N mp sig_mu_x fuel = some res) :
    res.XK[0]? =
      some ((linspace mp.L_x mp.n_x).getD (argmin sig_mu_x) 0) ∧
    res.sig_c_K[1]? =
      some (sig_mu_x.getD (argmin sig_mu_x) 0 * mp.Ec / mp.Em) ∧
    res.eps_c_K[1]? = some (sig_mu_x.getD (argmin sig_mu_x) 0 / mp.Em) ∧
    mp.Ec = mp.Em * (1 - mp.vf) + mp.Ef * mp.vf ∧
    (∀ s ∈ sig_mu_x, sig_mu_x.getD (argmin sig_mu_x) 0 ≤ s) := by
  rcases get_cracking_history_elim N mp sig_mu_x fuel res h with
    ⟨hlen, hn0, hloop⟩
  have hsx : sig_mu_x ≠ [] := by
    intro hnil
    rw [hnil] at hlen
    exact hn0 hlen.symm
  have hmain := crackLoop_invariant N mp (linspace mp.L_x mp.n_x) sig_mu_x
    (fun st =>
      st.XK[0]? =
        some ((linspace mp.L_x mp.n_x).getD (argmin sig_mu_x) 0) ∧
      st.sig_c_K[1]? =
        some (sig_mu_x.getD (argmin sig_mu_x) 0 * mp.Ec / mp.Em) ∧
      st.eps_c_K[1]? = some (sig_mu_x.getD (argmin sig_mu_x) 0 / mp.Em))
    (fun r =>
      r.XK[0]? =
        some ((linspace mp.L_x mp.n_x).getD (argmin sig_mu_x) 0) ∧
      r.sig_c_K[1]? =
        some (sig_mu_x.getD (argmin sig_mu_x) 0 * mp.Ec / mp.Em) ∧
      r.eps_c_K[1]? = some (sig_mu_x.getD (argmin sig_mu_x) 0 / mp.Em))
    ?_ ?_ fuel _ res ?_ hloop
  · refine ⟨hmain.1, hmain.2.1, hmain.2.2, rfl, ?_⟩
    intro s hs
    rw [show argmin sig_mu_x = (minIdx sig_mu_x).1 from rfl,
      minIdx_getD sig_mu_x hsx]
    exact minIdx_snd_le sig_mu_x s hs
  · intro st st' hP hstep
    rcases crackStep_inr_elim N mp _ sig_mu_x st st' hstep with
      ⟨z_x, _, _, hXK, hsig, ⟨e, heps⟩, _, _⟩
    exact ⟨hXK ▸ getElem?_append_some hP.1,
      hsig ▸ getElem?_append_some hP.2.1,
      heps ▸ getElem?_append_some hP.2.2⟩
  · intro st r hP hstep
    rcases crackStep_inl_elim N mp _ sig_mu_x st r hstep with
      ⟨z_x, _, hXK, hsig, ⟨e, heps⟩, _, _, _, _⟩
    exact ⟨hXK ▸ hP.1, hsig ▸ getElem?_append_some hP.2.1,
      heps ▸ getElem?_append_some hP.2.2⟩
  · simp [initState]

/-- Claim C8, amended: every terminating run returns one matrix-stress
snapshot of length `n_x` per recorded state EXCEPT the final sentinel
state, so `len(sig_m_x_K) + 1 = len(sig_c_K)` (the claim's
`len(sig_m_x_K) = len(sig_c_K)` is off by one); and each snapshot
recorded in the loop (index `j ≥ 1`; index `0` is the bootstrap zero
field) equals `get_sig_m` broadcast — positionally, as at pmcm.py:135 —
over the distance field of the crack set current at that iteration
(`XK.take j`) at the stress `sig_c_K[-1]` current at that iteration
(`sig_c_K[j]`). -/
theorem claim_C8_amended (N : NewtonFun) (mp : ModelParams)
    (sig_mu_x : List ℚ) (fuel : ℕ) (res : CrackResult)
    (h : get_cracking_history N mp sig_mu_x fuel = some res) :
    res.sig_m_x_K.length + 1 = res.sig_c_K.length ∧
    (∀ s ∈ res.sig_m_x_K, s.length = mp.n_x) ∧
    ∀ j, 1 ≤ j → j < res.sig_m_x_K.length →
      ∃ z_x, get_z_x (linspace mp.L_x mp.n_x) (res.XK.take j) = some z_x ∧
        res.sig_m_x_K[j]? =
          some (z_x.map (fun zi => get_sig_m mp zi (res.sig_c_K.getD j 0))) := by
  rcases get_cracking_history_elim N mp sig_mu_x fuel res h with
    ⟨hlen, hn0, hloop⟩
  have hxlen : (linspace mp.L_x mp.n_x).length = mp.n_x :=
    linspace_length mp.L_x mp.n_x
  refine crackLoop_invariant N mp (linspace mp.L_x mp.n_x) sig_mu_x
    (fun st => st.sig_m_x_K.length + 1 = st.sig_c_K.length ∧
      st.XK.length = st.sig_m_x_K.length ∧
      (∀ s ∈ st.sig_m_x_K, s.length = mp.n_x) ∧
      ∀ j, 1 ≤ j → j < st.sig_m_x_K.length →
        ∃ z_x, get_z_x (linspace mp.L_x mp.n_x) (st.XK.take j) = some z_x ∧
          st.sig_m_x_K[j]? =
            some (z_x.map (fun zi => get_sig_m mp zi (st.sig_c_K.getD j 0))))
    (fun r => r.sig_m_x_K.length + 1 = r.sig_c_K.length ∧
      (∀ s ∈ r.sig_m_x_K, s.length = mp.n_x) ∧
      ∀ j, 1 ≤ j → j < r.sig_m_x_K.length →
        ∃ z_x, get_z_x (linspace mp.L_x mp.n_x) (r.XK.take j) = some z_x ∧
          r.sig_m_x_K[j]? =
            some (z_x.map (fun zi => get_sig_m mp zi (r.sig_c_K.getD j 0))))
    ?_ ?_ fuel _ res ?_ hloop
  · intro st st' hP hstep
    rcases hP with ⟨hlen1, hlenXK, hmem, hhist⟩
    rcases crackStep_inr_elim N mp _ sig_mu_x st st' hstep with
      ⟨z_x, hzx, _, hXK, hsig, _, _, hsnap⟩
    have hsnaplen : st'.sig_m_x_K.length = st.sig_m_x_K.length + 1 := by
      rw [hsnap, List.length_append, List.length_cons, List.length_nil]
    refine ⟨?_, ?_, ?_, ?_⟩
    · rw [hsnaplen, hsig, List.length_append]
      simp only [List.length_cons, List.length_nil]
      omega
    · rw [hsnaplen, hXK, List.length_append]
      simp only [List.length_cons, List.length_nil]
      omega
    · intro s hs
      rw [hsnap] at hs
      rcases List.mem_append.mp hs with hs' | hs'
      · exact hmem s hs'
      · rcases List.mem_singleton.mp hs' with rfl
        rw [List.length_map, get_z_x_length _ _ _ hzx, hxlen]
    · intro j hj1 hj2
      rw [hsnaplen] at hj2
      rcases Nat.lt_succ_iff_lt_or_eq.mp hj2 with hjlt | hjeq
      · rcases hhist j hj1 hjlt with ⟨zj, hzj, hsj⟩
        refine ⟨zj, ?_, ?_⟩
        · rw [hXK, List.take_append_of_le_length
            (Nat.le_of_lt (hlenXK ▸ hjlt))]
          exact hzj
        · rw [hsnap, hsig, getD_append_left 0 (by omega)]
          exact getElem?_append_some hsj
      · refine ⟨z_x, ?_, ?_⟩
        · rw [hXK, show j = st.XK.length by omega, List.take_left]
          exact hzx
        · rw [hsnap, hsig, hjeq, List.getElem?_concat_length,
            getD_append_left 0 (by omega),
            show st.sig_m_x_K.length = st.sig_c_K.length - 1 by omega,
            getD_length_sub_one]
  · intro st r hP hstep
    rcases hP with ⟨hlen1, hlenXK, hmem, hhist⟩
    rcases crackStep_inl_elim N mp _ sig_mu_x st r hstep with
      ⟨z_x, hzx, hXK, hsig, _, _, _, _, hsnap⟩
    have hsnaplen : r.sig_m_x_K.length = st.sig_m_x_K.length + 1 := by
      rw [hsnap, List.length_append, List.length_cons, List.length_nil]
    refine ⟨?_, ?_, ?_⟩
    · rw [hsnaplen, hsig, List.length_append]
      simp only [List.length_cons, List.length_nil]
      omega
    · intro s hs
      rw [hsnap] at hs
      rcases List.mem_append.mp hs with hs' | hs'
      · exact hmem s hs'
      · rcases List.mem_singleton.mp hs' with rfl
        rw [List.length_map, get_z_x_length _ _ _ hzx, hxlen]
    · intro j hj1 hj2
      rw [hsnaplen] at hj2
      rcases Nat.lt_succ_iff_lt_or_eq.mp hj2 with hjlt | hjeq
      · rcases hhist j hj1 hjlt with ⟨zj, hzj, hsj⟩
        refine ⟨zj, ?_, ?_⟩
        · rw [hXK]
          exact hzj
        · rw [hsnap, hsig, getD_append_left 0 (by omega)]
          exact getElem?_append_some hsj
      · refine ⟨z_x, ?_, ?_⟩
        · rw [hXK, show j = st.XK.length by omega, List.take_length]
          exact hzx
        · rw [hsnap, hsig, hjeq, List.getElem?_concat_length,
            getD_append_left 0 (by omega),
            show st.sig_m_x_K.length = st.sig_c_K.length - 1 by omega,
            getD_length_sub_one]
  · refine ⟨?_, ?_, ?_, ?_⟩
    · simp [initState]
    · simp [initState]
    · intro s hs
      simp only [initState, List.mem_singleton] at hs
      rw [hs, List.length_map, hxlen]
    · intro j hj1 hj2
      simp only [initState, List.length_cons, List.length_nil] at hj2
      omega

/-- Claim C9: every terminating run satisfies
`len(sig_c_K) = len(eps_c_K) = len(CS)` and
`len(XK) = len(sig_c_K) − 2` (bootstrap zero state and final sentinel
state carry no crack position), and `sig_c_K` starts at `0`. -/
theorem claim_C9 (N : NewtonFun) (mp : ModelParams) (sig_mu_x : List ℚ)
    (fuel : ℕ) (res : CrackResult)
    (h : get_cracking_history N mp sig_mu_x fuel = some res) :
    res.sig_c_K.length = res.eps_c_K.length ∧
    res.CS.length = res.sig_c_K.length ∧
    res.XK.length + 2 = res.sig_c_K.length ∧
    res.sig_c_K[0]? = some 0 := by
  rcases get_cracking_history_elim N mp sig_mu_x fuel res h with
    ⟨hlen, hn0, hloop⟩
  refine crackLoop_invariant N mp (linspace mp.L_x mp.n_x) sig_mu_x
    (fun st => st.sig_c_K.length = st.eps_c_K.length ∧
      st.CS.length = st.sig_c_K.length ∧
      st.XK.length + 1 = st.sig_c_K.length ∧
      st.sig_c_K[0]? = some 0)
    (fun r => r.sig_c_K.length = r.eps_c_K.length ∧
      r.CS.length = r.sig_c_K.length ∧
      r.XK.length + 2 = r.sig_c_K.length ∧
      r.sig_c_K[0]? = some 0)
    ?_ ?_ fuel _ res ?_ hloop
  · intro st st' hP hstep
    rcases crackStep_inr_elim N mp _ sig_mu_x st st' hstep with
      ⟨z_x, _, _, hXK, hsig, ⟨e, heps⟩, ⟨c, hcs⟩, _⟩
    refine ⟨?_, ?_, ?_, hsig ▸ getElem?_append_some hP.2.2.2⟩
    · rw [hsig, heps, List.length_append, List.length_append]
      simpa using hP.1
    · rw [hsig, hcs, List.length_append, List.length_append]
      simpa using hP.2.1
    · rw [hsig, hXK, List.length_append, List.length_append]
      simp only [List.length_cons, List.length_nil]
      have := hP.2.2.1
      omega
  · intro st r hP hstep
    rcases crackStep_inl_elim N mp _ sig_mu_x st r hstep with
      ⟨z_x, _, hXK, hsig, ⟨e, heps⟩, _, _, ⟨c, hcs⟩, _⟩
    refine ⟨?_, ?_, ?_, hsig ▸ getElem?_append_some hP.2.2.2⟩
    · rw [hsig, heps, List.length_append, List.length_append]
      simpa using hP.1
    · rw [hsig, hcs, List.length_append, List.length_append]
      simpa using hP.2.1
    · rw [hsig, hXK, List.length_append]
      simp only [List.length_cons, List.length_nil]
      have := hP.2.2.1
      omega
  · refine ⟨?_, ?_, ?_, ?_⟩ <;> simp [initState]

/-- Claim C10: every crack position a terminating run accumulates in
`XK` is an element of the discretization `linspace 0 L_x n_x`, hence
(for `L_x ≥ 0`) lies within `[0, L_x]`. -/
theorem claim_C10 (N : NewtonFun) (mp : ModelParams) (sig_mu_x : List ℚ)
    (fuel : ℕ) (res : CrackResult)
    (h : get_cracking_history N mp sig_mu_x fuel = some res)
    (hL : 0 ≤ mp.L_x) :
    ∀ p ∈ res.XK, p ∈ linspace mp.L_x mp.n_x ∧ 0 ≤ p ∧ p ≤ mp.L_x := by
  rcases get_cracking_history_elim N mp sig_mu_x fuel res h with
    ⟨hlen, hn0, hloop⟩
  have hxlen : (linspace mp.L_x mp.n_x).length = mp.n_x :=
    linspace_length mp.L_x mp.n_x
  have hxne : linspace mp.L_x mp.n_x ≠ [] := by
    intro hnil
    rw [hnil] at hxlen
    exact hn0 hxlen.symm
  have hsx : sig_mu_x ≠ [] := by
    intro hnil
    rw [hnil] at hlen
    exact hn0 hlen.symm
  have hmem : ∀ p ∈ res.XK, p ∈ linspace mp.L_x mp.n_x := by
    refine crackLoop_invariant N mp (linspace mp.L_x mp.n_x) sig_mu_x
      (fun st => ∀ p ∈ st.XK, p ∈ linspace mp.L_x mp.n_x)
      (fun r => ∀ p ∈ r.XK, p ∈ linspace mp.L_x mp.n_x)
      ?_ ?_ fuel _ res ?_ hloop
    · intro st st' hP hstep
      rcases crackStep_inr_elim N mp _ sig_mu_x st st' hstep with
        ⟨z_x, hzx, _, hXK, _, _, _, _⟩
      intro p hp
      rw [hXK] at hp
      rcases List.mem_append.mp hp with hp' | hp'
      · exact hP p hp'
      · rcases List.mem_singleton.mp hp' with rfl
        exact get_sig_c_K_snd_mem N mp z_x _ _ sig_mu_x
          (by rw [hlen, hxlen]) (get_z_x_length _ _ _ hzx) hxne
    · intro st r hP hstep
      rcases crackStep_inl_elim N mp _ sig_mu_x st r hstep with
        ⟨z_x, _, hXK, _, _, _, _, _, _⟩
      rw [hXK]
      exact hP
    · intro p hp
      simp only [initState, List.mem_singleton] at hp
      rw [hp]
      apply getD_mem
      rw [hxlen, ← hlen]
      exact minIdx_fst_lt_length sig_mu_x hsx
  intro p hp
  rcases mem_linspace_bounds mp.L_x mp.n_x hL p (hmem p hp) with ⟨h0, h1⟩
  exact ⟨hmem p hp, h0, h1⟩

unseal Rat.add Rat.mul Rat.inv Rat.sub in
/-- Claim C5 (code-bug evidence): a concrete terminating run driven by
the secant model (`Em=Ef=1, vf=1/2, T=10, n_x=3, L_x=40, sig_cu=100`,
strengths `[1, 2, 3]`) returns `sig_c_K = [0, 1, 1/5, 3/10, 100]`, which
is NOT non-decreasing (`1 > 1/5`) and not strictly increasing before the
sentinel, although its final entry does equal `sig_cu`.  The decrease
happens because the positionally swapped `get_sig_m` call inside the
residual of `get_sig_c_z` yields crack loads `sig_mu/(T·vf/(1−vf))`
unrelated to the initialization scale `sig_mu·Ec/Em`. -/
theorem claim_C5_run :
    (get_cracking_history scipyNewton mpC5 [1, 2, 3] 3).map
      (fun r => r.sig_c_K) = some [0, 1, 1/5, 3/10, 100] ∧
    (get_cracking_history scipyNewton mpC5 [1, 2, 3] 3).map
      (fun r => nonDecreasing r.sig_c_K) = some false ∧
    [(0 : ℚ), 1, 1/5, 3/10, 100].getLast? = some mpC5.sig_cu :=
  ⟨by decide, by decide, by decide⟩

unseal Rat.add Rat.mul Rat.inv Rat.sub in
/-- Claim C8, counterexample: the terminating run
`get_cracking_history errNewton mpW [1, 2] 1` records 2 matrix-stress
snapshots but 3 entries of `sig_c_K`, so the lengths differ —
contradicting the claimed `len(sig_m_x_K) = len(sig_c_K)`. -/
theorem claim_C8_cex :
    (get_cracking_history errNewton mpW [1, 2] 1).map
      (fun r => (r.sig_m_x_K.length, r.sig_c_K.length)) = some (2, 3) ∧
    (2 : ℕ) ≠ 3 :=
  ⟨by decide, by decide⟩

unseal Rat.add Rat.mul Rat.inv Rat.sub in
/-- Claim C7, witness: the concrete run `resW` (strengths `[1, 2]`): the
first crack sits at `x[0] = 0`, the weakest point, with stress
`1·Ec/Em = 1` and strain `1/Em = 1`. -/
theorem claim_C7_witness :
    resW.XK[0]? =
      some ((linspace mpW.L_x mpW.n_x).getD (argmin [(1 : ℚ), 2]) 0) ∧
    resW.sig_c_K[1]? =
      some (([(1 : ℚ), 2]).getD (argmin [(1 : ℚ), 2]) 0 * mpW.Ec / mpW.Em) ∧
    resW.eps_c_K[1]? =
      some (([(1 : ℚ), 2]).getD (argmin [(1 : ℚ), 2]) 0 / mpW.Em) ∧
    mpW.Ec = mpW.Em * (1 - mpW.vf) + mpW.Ef * mpW.vf ∧
    (∀ s ∈ [(1 : ℚ), 2], ([(1 : ℚ), 2]).getD (argmin [(1 : ℚ), 2]) 0 ≤ s) :=
  claim_C7 errNewton mpW [1, 2] 1 resW (by decide)

unseal Rat.add Rat.mul Rat.inv Rat.sub in
/-- Claim C8 (amended), witness: on the concrete run `resW`,
`len(sig_m_x_K) + 1 = len(sig_c_K)`, both snapshots have length
`n_x = 2`, and the one loop-recorded snapshot (index 1) is `get_sig_m`
over the distance field of `XK.take 1 = [0]` at stress
`sig_c_K[1] = 1`. -/
theorem claim_C8_witness :
    resW.sig_m_x_K.length + 1 = resW.sig_c_K.length ∧
    (∀ s ∈ resW.sig_m_x_K, s.length = mpW.n_x) ∧
    ∀ j, 1 ≤ j → j < resW.sig_m_x_K.length →
      ∃ z_x, get_z_x (linspace mpW.L_x mpW.n_x) (resW.XK.take j) = some z_x ∧
        resW.sig_m_x_K[j]? =
          some (z_x.map (fun zi => get_sig_m mpW zi (resW.sig_c_K.getD j 0))) :=
  claim_C8_amended errNewton mpW [1, 2] 1 resW (by decide)

unseal Rat.add Rat.mul Rat.inv Rat.sub in
/-- Claim C9, witness: on the concrete run `resW` all three sequences
have length 3, `XK` has one entry, and `sig_c_K` starts at `0`. -/
theorem claim_C9_witness :
    resW.sig_c_K.length = resW.eps_c_K.length ∧
    resW.CS.length = resW.sig_c_K.length ∧
    resW.XK.length + 2 = resW.sig_c_K.length ∧
    resW.sig_c_K[0]? = some 0 :=
  claim_C9 errNewton mpW [1, 2] 1 resW (by decide)

unseal Rat.add Rat.mul Rat.inv Rat.sub in
/-- Claim C10, witness: on the concrete run `resW` the single recorded
crack position `0` lies on the discretization of `[0, L_x]`. -/
theorem claim_C10_witness :
    (0 : ℚ) ∈ linspace mpW.L_x mpW.n_x ∧
    (0 : ℚ) ≤ 0 ∧ (0 : ℚ) ≤ mpW.L_x :=
  claim_C10 errNewton mpW [1, 2] 1 resW (by decide) (by decide) 0 (by decide)

end Pmcm
